import Mathlib

/-!
Shallow embedding of the Cilium node manager (`pkg/node/manager/manager.go`).

The manager is modelled as a pure state-transition system: each exported
operation maps a `Manager` state (and the incoming `Node` event) to the
successor state together with the list of observable effects it performs —
ipcache upserts/deletes, per-entry guard acquisition/release, and the
handler fan-out calls (`NodeAdd`, `NodeUpdate`, `NodeDelete`).

External collaborators that are not part of the sources under verification
(the ipcache's ownership answer, the `source.AllowOverwrite` arbitration
policy, the `EncryptNode` option, and the local-node identity) are supplied
through an `Env` record, so theorems quantify over their behaviour.
-/

set_option autoImplicit false

namespace NodeManager

/-- An IP address: `v4` tells whether `To4()` is non-nil; `val` abstracts the
address bytes. Distinct `IP` values have distinct `String()` renderings, so
`IP` itself serves as the ipcache key. -/
structure IP where
  v4 : Bool
  val : Nat
deriving DecidableEq, Repr

/-- Address roles from `pkg/node/addressing`; only the Cilium-internal role is
distinguished by the manager. -/
inductive AddressType where
  | nodeCiliumInternalIP
  | nodeInternalIP
  | nodeExternalIP
deriving DecidableEq, Repr

/-- A typed node address (`node.Address`). -/
structure Address where
  typ : AddressType
  ip : IP
deriving DecidableEq, Repr

/-- Discovery sources (`pkg/source`): the agent's own configuration, the
orchestrator API, and the distributed key-value store. -/
inductive Source where
  | agentLocal
  | kubernetes
  | kvstore
deriving DecidableEq, Repr

/-- Modelled from the spec: a node identity is the pair of cluster name and
node name (`pkg/node.Identity`, not under the verified sources). -/
structure Identity where
  name : String
  cluster : String
deriving DecidableEq, Repr

/-- The node record (`pkg/node.Node`), restricted to the fields the manager
reads. `externalNodeIP` is the value `GetNodeIP(false)` reports for this
record (modelled from the spec as an opaque projection of the record: the
reachable/public node IP preferring IPv4). -/
structure Node where
  name : String
  cluster : String
  source : Source
  ipAddresses : List Address
  ipv4HealthIP : Option IP
  ipv6HealthIP : Option IP
  encryptionKey : Nat
  externalNodeIP : Option IP
deriving DecidableEq, Repr

/-- Modelled from the spec: `Node.Identity()` builds the identity from the
node's name and cluster. -/
def Node.identity (n : Node) : Identity :=
  ⟨n.name, n.cluster⟩

/-- Modelled from the spec: `n.GetNodeIP(false)` — the node IP used as tunnel
endpoint for overlay routing, kept abstract as a field of the record. -/
def getNodeIP (n : Node) : Option IP :=
  n.externalNodeIP

/-- The reserved identity attached to an ipcache upsert: host for node
addresses, health for health-check addresses. -/
inductive IdentKind where
  | host
  | health
deriving DecidableEq, Repr

/-- One `ipcache.IPIdentityCache.Upsert` call: key, tunnel endpoint,
encryption key, reserved identity, and the source performing the upsert. -/
structure UpsertReq where
  ip : IP
  tunnelEndpoint : Option IP
  encryptKey : Nat
  idKind : IdentKind
  source : Source
deriving DecidableEq, Repr

/-- Datapath handlers are identified abstractly. -/
abbrev Handler := Nat

/-- Observable effects of one manager operation, in the order the Go code
performs them. `lockEntry`/`unlockEntry` record acquisition and release of a
node entry's guard. -/
inductive Effect where
  | ipcacheUpsert (r : UpsertReq)
  | ipcacheDelete (ip : IP) (s : Source)
  | lockEntry (id : Identity)
  | unlockEntry (id : Identity)
  | nodeAdd (h : Handler) (n : Node)
  | nodeUpdate (h : Handler) (old new : Node)
  | nodeDelete (h : Handler) (n : Node)
  | nodeValidate (h : Handler) (n : Node)
deriving DecidableEq, Repr

/-- Whether an effect is a `NodeAdd` fan-out call. -/
def Effect.isNodeAddEff : Effect → Bool
  | Effect.nodeAdd _ _ => true
  | _ => false

/-- Whether an effect is a `NodeUpdate` fan-out call. -/
def Effect.isNodeUpdateEff : Effect → Bool
  | Effect.nodeUpdate _ _ _ => true
  | _ => false

/-- Whether an effect is an ipcache deletion. -/
def Effect.isIpcacheDeleteEff : Effect → Bool
  | Effect.ipcacheDelete _ _ => true
  | _ => false

/-- Labels of the received-events counter. -/
inductive EvType where
  | add
  | update
  | delete
deriving DecidableEq, Repr

/-- External collaborators of the manager: the `EncryptNode` option, the
arbitration policy `source.AllowOverwrite`, the ipcache's ownership verdict
for each upsert, and the identity of the node the agent runs on. -/
structure Env where
  encryptNode : Bool
  allowOverwrite : Source → Source → Bool
  owns : UpsertReq → Bool
  localIdentity : Identity

/-- Modelled from the spec: `n.IsLocal()` — whether the event's record
denotes the node the agent itself is running on. -/
def isLocal (env : Env) (n : Node) : Bool :=
  n.identity = env.localIdentity

/-- Manager state: the node map (association list keyed by identity), the
subscribed handler set, the close flag (`closeChan`), the received-events
counter (as the list of `(label, source)` increments) and the node-count
gauge. -/
structure Manager where
  nodes : List (Identity × Node)
  handlers : List Handler
  closed : Bool
  eventsReceived : List (EvType × Source)
  numNodes : Int
deriving DecidableEq, Repr

/-- Lookup in the node map. -/
def lookupNode : List (Identity × Node) → Identity → Option Node
  | [], _ => none
  | (k, v) :: rest, id => if k = id then some v else lookupNode rest id

/-- Replace the record stored under a key, keeping the map structure. -/
def updateNode : List (Identity × Node) → Identity → Node → List (Identity × Node)
  | [], _, _ => []
  | (k, v) :: rest, id, n =>
      if k = id then (k, n) :: rest else (k, v) :: updateNode rest id n

/-- Remove a key from the node map. -/
def removeNode : List (Identity × Node) → Identity → List (Identity × Node)
  | [], _ => []
  | (k, v) :: rest, id =>
      if k = id then removeNode rest id else (k, v) :: removeNode rest id

/-- Accumulator of the first upsert loop of `NodeUpdated`: the assigned
`nodeIP` and `nodeIP4` variables and the upsert calls issued so far. -/
structure UpsertAcc where
  nodeIP : Option IP
  nodeIP4 : Option IP
  reqs : List UpsertReq
deriving DecidableEq, Repr

/-- First loop of `NodeUpdated`: every Cilium-internal address is upserted
with the node IP as tunnel endpoint; `nodeIP4` is derived when the internal
address is IPv4. -/
def internalUpserts (n : Node) : UpsertAcc :=
  n.ipAddresses.foldl
    (fun acc addr =>
      if addr.typ = AddressType.nodeCiliumInternalIP then
        let nIP := getNodeIP n
        { nodeIP := nIP,
          nodeIP4 := if addr.ip.v4 then nIP else acc.nodeIP4,
          reqs := acc.reqs ++ [⟨addr.ip, nIP, n.encryptionKey, IdentKind.host, n.source⟩] }
      else acc)
    ⟨none, none, []⟩

/-- Second loop of `NodeUpdated` (only with `EncryptNode`): every
non-internal address is upserted with `nodeIP4` as tunnel endpoint. -/
def encryptUpserts (env : Env) (n : Node) (nodeIP4 : Option IP) : List UpsertReq :=
  if env.encryptNode then
    n.ipAddresses.foldl
      (fun reqs addr =>
        if addr.typ = AddressType.nodeCiliumInternalIP then reqs
        else reqs ++ [⟨addr.ip, nodeIP4, n.encryptionKey, IdentKind.host, n.source⟩])
      []
  else []

/-- Third loop of `NodeUpdated`: the optional IPv4/IPv6 health addresses are
upserted with the health identity. -/
def healthUpserts (n : Node) : List UpsertReq :=
  [n.ipv4HealthIP, n.ipv6HealthIP].foldl
    (fun reqs a =>
      match a with
      | none => reqs
      | some ip => reqs ++ [⟨ip, getNodeIP n, n.encryptionKey, IdentKind.health, n.source⟩])
    []

/-- All ipcache upserts `NodeUpdated` performs for a record, in program
order. -/
def upsertRequests (env : Env) (n : Node) : List UpsertReq :=
  let acc := internalUpserts n
  acc.reqs ++ encryptUpserts env n acc.nodeIP4 ++ healthUpserts n

/-- `Manager.NodeUpdated`: project addresses into the ipcache (computing
`dpUpdate` as the conjunction of all ownership verdicts), then either insert
a fresh entry or — subject to arbitration — replace the stored record, fanning
out to handlers only when `dpUpdate` holds. -/
def nodeUpdated (env : Env) (m : Manager) (n : Node) : Manager × List Effect :=
  let reqs := upsertRequests env n
  let dpUpdate := reqs.all env.owns
  let upsertEffs := reqs.map Effect.ipcacheUpsert
  let id := n.identity
  match lookupNode m.nodes id with
  | some old =>
      let m1 : Manager :=
        { m with eventsReceived := m.eventsReceived ++ [(EvType.update, n.source)] }
      if env.allowOverwrite old.source n.source then
        let m2 : Manager := { m1 with nodes := updateNode m1.nodes id n }
        let fan :=
          if dpUpdate then m.handlers.map (fun h => Effect.nodeUpdate h old n) else []
        (m2, upsertEffs ++ [Effect.lockEntry id] ++ fan ++ [Effect.unlockEntry id])
      else
        (m1, upsertEffs)
  | none =>
      let m1 : Manager :=
        { m with
          eventsReceived := m.eventsReceived ++ [(EvType.add, n.source)],
          numNodes := m.numNodes + 1,
          nodes := m.nodes ++ [(id, n)] }
      let fan :=
        if dpUpdate then m.handlers.map (fun h => Effect.nodeAdd h n) else []
      (m1, upsertEffs ++ [Effect.lockEntry id] ++ fan ++ [Effect.unlockEntry id])

/-- The per-entry teardown trace shared by `Close` and `DeleteAllNodes`: each
entry's guard is taken, `NodeDelete` is fanned out to every handler, and the
guard is released. -/
def entryDeleteEffects (handlers : List Handler) (p : Identity × Node) : List Effect :=
  Effect.lockEntry p.1 ::
    (handlers.map (fun h => Effect.nodeDelete h p.2) ++ [Effect.unlockEntry p.1])

/-- `Manager.Close`: close the lifecycle signal and issue `NodeDelete` to all
handlers for every entry. The node map itself is not modified. -/
def closeManager (m : Manager) : Manager × List Effect :=
  ({ m with closed := true }, m.nodes.flatMap (entryDeleteEffects m.handlers))

/-- `Manager.NodeDeleted`: honor the delete only when the event's source
matches the stored record's source; on a mismatch, shut the manager down iff
the event is the orchestrator deleting the local node. -/
def nodeDeleted (env : Env) (m : Manager) (n : Node) : Manager × List Effect :=
  let m0 : Manager :=
    { m with eventsReceived := m.eventsReceived ++ [(EvType.delete, n.source)] }
  match lookupNode m.nodes n.identity with
  | none => (m0, [])
  | some stored =>
      if n.source ≠ stored.source then
        if isLocal env n = true ∧ n.source = Source.kubernetes then
          closeManager m0
        else
          (m0, [])
      else
        let delEffs := stored.ipAddresses.map (fun a => Effect.ipcacheDelete a.ip n.source)
        let m1 : Manager :=
          { m0 with
            numNodes := m0.numNodes - 1,
            nodes := removeNode m0.nodes n.identity }
        let fan := m.handlers.map (fun h => Effect.nodeDelete h n)
        (m1, delEffs ++ [Effect.lockEntry n.identity] ++ fan ++ [Effect.unlockEntry n.identity])

/-- `Manager.Subscribe`: add the handler to the set, then replay `NodeAdd`
for every current entry to the new handler only, under each entry's guard. -/
def subscribe (m : Manager) (nh : Handler) : Manager × List Effect :=
  ({ m with handlers := if nh ∈ m.handlers then m.handlers else m.handlers ++ [nh] },
   m.nodes.flatMap
     (fun p => [Effect.lockEntry p.1, Effect.nodeAdd nh p.2, Effect.unlockEntry p.1]))

/-- `Manager.DeleteAllNodes`: fan out `NodeDelete` for every entry, then reset
the node map; the gauge and the ipcache are untouched. -/
def deleteAllNodes (m : Manager) : Manager × List Effect :=
  ({ m with nodes := [] }, m.nodes.flatMap (entryDeleteEffects m.handlers))

/-- `Manager.Exists`. -/
def existsNode (m : Manager) (id : Identity) : Bool :=
  (lookupNode m.nodes id).isSome

/-- Modelled from the spec: the trust ranking of `pkg/source` (not under the
verified sources) — the agent's own configuration outranks the orchestrator,
which outranks the distributed store. -/
def trustRank : Source → Nat
  | Source.agentLocal => 2
  | Source.kubernetes => 1
  | Source.kvstore => 0

/-- Modelled from the spec: `source.AllowOverwrite(existing, new)` permits the
overwrite exactly when the new source is at least as trusted as the existing
one (a total order, reflexive on equal sources). -/
def AllowOverwrite (existing new : Source) : Bool :=
  trustRank existing ≤ trustRank new

/-! Concrete fixtures used by witnesses and counterexamples. -/

/-- A cluster-internal IPv4 address. -/
def ipA : IP := ⟨true, 1⟩

/-- The public node IP used as tunnel endpoint in the fixtures. -/
def ipPub : IP := ⟨true, 9⟩

/-- Identity of the fixture node. -/
def idW : Identity := ⟨"node1", "clusterA"⟩

/-- A fixture record owned by the orchestrator, with one Cilium-internal
address. -/
def nodeK8s : Node :=
  { name := "node1", cluster := "clusterA", source := Source.kubernetes,
    ipAddresses := [⟨AddressType.nodeCiliumInternalIP, ipA⟩],
    ipv4HealthIP := none, ipv6HealthIP := none,
    encryptionKey := 0, externalNodeIP := some ipPub }

/-- The same record as reported by the distributed store. -/
def nodeKV : Node := { nodeK8s with source := Source.kvstore }

/-- The same record as owned by the agent's local configuration. -/
def nodeLocal : Node := { nodeK8s with source := Source.agentLocal }

/-- A record for a second identity, owned by the orchestrator. -/
def nodeOther : Node :=
  { nodeK8s with name := "node2", ipAddresses := [⟨AddressType.nodeCiliumInternalIP, ⟨true, 2⟩⟩] }

/-- Fixture environment: encryption disabled, the spec-modelled arbitration
policy, an ipcache that grants ownership to every upsert, and an agent
running on a third, unrelated node. -/
def envW : Env :=
  { encryptNode := false, allowOverwrite := AllowOverwrite,
    owns := fun _ => true, localIdentity := ⟨"elsewhere", "clusterA"⟩ }

/-- Fixture environment whose local node is the fixture identity. -/
def envLocal : Env := { envW with localIdentity := idW }

/-- Fixture environment whose ipcache denies ownership of every upsert. -/
def envDeny : Env := { envW with owns := fun _ => false }

/-- Empty manager with a single subscribed handler. -/
def mgr0 : Manager :=
  { nodes := [], handlers := [0], closed := false, eventsReceived := [], numNodes := 0 }

/-- Manager tracking the fixture node (owned by the orchestrator). -/
def mgrK8s : Manager := { mgr0 with nodes := [(idW, nodeK8s)], numNodes := 1 }

/-- Manager tracking the fixture node (owned by the local agent). -/
def mgrLocal : Manager := { mgr0 with nodes := [(idW, nodeLocal)], numNodes := 1 }

/-- `Manager.ClusterSizeDependantInterval`: the base interval for an empty
manager, otherwise `int64(float64(base) * Log1p(numNodes))`. The float64
computation is modelled over the reals; the `int64` conversion truncates
toward zero, which coincides with the floor on the nonnegative values the
claims concern. -/
noncomputable def clusterSizeDependantInterval (numNodes : Nat) (baseInterval : Int) : Int :=
  if numNodes = 0 then baseInterval
  else ⌊(baseInterval : ℝ) * Real.log (1 + (numNodes : ℝ))⌋

/-! Helper lemmas about the node map and effect traces. -/

theorem lookupNode_updateNode_self (l : List (Identity × Node)) (id : Identity)
    (n v : Node) (hl : lookupNode l id = some v) :
    lookupNode (updateNode l id n) id = some n := by
  induction l with
  | nil => simp [lookupNode] at hl
  | cons p rest ih =>
      obtain ⟨k, w⟩ := p
      by_cases hk : k = id
      · subst hk
        simp [lookupNode, updateNode]
      · simp [lookupNode, updateNode, hk] at hl ⊢
        exact ih hl

theorem lookupNode_append_single (l : List (Identity × Node)) (id : Identity)
    (n : Node) (hl : lookupNode l id = none) :
    lookupNode (l ++ [(id, n)]) id = some n := by
  induction l with
  | nil => simp [lookupNode]
  | cons p rest ih =>
      obtain ⟨k, w⟩ := p
      by_cases hk : k = id
      · simp [lookupNode, hk] at hl
      · simp [lookupNode, hk] at hl ⊢
        exact ih hl

theorem lookupNode_removeNode_self (l : List (Identity × Node)) (id : Identity) :
    lookupNode (removeNode l id) id = none := by
  induction l with
  | nil => simp [removeNode, lookupNode]
  | cons p rest ih =>
      obtain ⟨k, w⟩ := p
      by_cases hk : k = id
      · simpa [removeNode, hk] using ih
      · simpa [removeNode, lookupNode, hk] using ih

theorem count_nodeDelete_map (hs : List Handler) (h : Handler) (nd nd' : Node) :
    ((hs.map fun h' => Effect.nodeDelete h' nd').count (Effect.nodeDelete h nd)) =
      if nd' = nd then hs.count h else 0 := by
  by_cases hnd : nd' = nd
  · subst hnd
    simpa using
      List.count_map_of_injective hs (fun h' => Effect.nodeDelete h' nd')
        (fun a b hab => by simpa using hab) h
  · rw [if_neg hnd, List.count_eq_zero]
    intro hmem
    obtain ⟨a, _, heq⟩ := List.mem_map.mp hmem
    have h2 : a = h ∧ nd' = nd := by simpa using heq
    exact hnd h2.2

theorem mem_entryDeleteEffects (hs : List Handler) (p : Identity × Node)
    (h : Handler) (nd : Node)
    (hmem : Effect.nodeDelete h nd ∈ entryDeleteEffects hs p) : p.2 = nd := by
  simp only [entryDeleteEffects, List.mem_cons, List.mem_append, List.mem_map,
    List.mem_singleton] at hmem
  rcases hmem with h1 | ⟨⟨a, _, h2⟩ | h3⟩
  · exact absurd h1 (by simp)
  · have h4 : a = h ∧ p.2 = nd := by simpa using h2
    exact h4.2
  · exact absurd h3 (by simp)

theorem count_entryDeleteEffects (hs : List Handler) (p : Identity × Node)
    (h : Handler) (nd : Node) :
    ((entryDeleteEffects hs p).count (Effect.nodeDelete h nd)) =
      if p.2 = nd then hs.count h else 0 := by
  have := count_nodeDelete_map hs h nd p.2
  simp only [entryDeleteEffects]
  rw [List.count_cons, List.count_append]
  simp only [List.count_singleton]
  have hlock : ((Effect.lockEntry p.1 = Effect.nodeDelete h nd : Prop) → False) := by simp
  have hunlock : ((Effect.unlockEntry p.1 = Effect.nodeDelete h nd : Prop) → False) := by simp
  simp only [this]
  by_cases hpd : p.2 = nd <;> simp [hpd]

theorem count_teardown_flatMap (hs : List Handler) (h : Handler) (nd : Node)
    (l : List (Identity × Node))
    (hdup : hs.Nodup) (hh : h ∈ hs)
    (hkeys : (l.map Prod.fst).Nodup)
    (hwf : ∀ p ∈ l, p.1 = p.2.identity)
    (hmem : (nd.identity, nd) ∈ l) :
    ((l.flatMap (entryDeleteEffects hs)).count (Effect.nodeDelete h nd)) = 1 := by
  induction l with
  | nil => simp at hmem
  | cons p rest ih =>
      rw [List.flatMap_cons, List.count_append]
      rcases List.mem_cons.mp hmem with hhead | htail
      · subst hhead
        have hone : ((entryDeleteEffects hs (nd.identity, nd)).count
            (Effect.nodeDelete h nd)) = 1 := by
          rw [count_entryDeleteEffects]
          simpa using List.count_eq_one_of_mem hdup hh
        have hzero : ((rest.flatMap (entryDeleteEffects hs)).count
            (Effect.nodeDelete h nd)) = 0 := by
          rw [List.count_eq_zero]
          intro hmem2
          obtain ⟨q, hq, hq2⟩ := List.mem_flatMap.mp hmem2
          have hq3 : q.2 = nd := mem_entryDeleteEffects hs q h nd hq2
          have hq4 : q.1 = nd.identity := by
            rw [hwf q (List.mem_cons_of_mem _ hq), hq3]
          have : nd.identity ∈ rest.map Prod.fst := by
            exact hq4 ▸ List.mem_map_of_mem Prod.fst hq
          simp only [List.map_cons, List.nodup_cons] at hkeys
          exact hkeys.1 this
        rw [hone, hzero]
      · have hpz : ((entryDeleteEffects hs p).count (Effect.nodeDelete h nd)) = 0 := by
          rw [count_entryDeleteEffects, if_neg]
          intro hpd
          have hp1 : p.1 = nd.identity := by rw [hwf p (List.mem_cons_self p rest), hpd]
          have : nd.identity ∈ rest.map Prod.fst :=
            List.mem_map_of_mem Prod.fst htail
          simp only [List.map_cons, List.nodup_cons] at hkeys
          exact hkeys.1 (hp1 ▸ this)
        rw [hpz, Nat.zero_add]
        simp only [List.map_cons, List.nodup_cons] at hkeys
        exact ih hkeys.2 (fun q hq => hwf q (List.mem_cons_of_mem _ hq)) htail

/-! Claim C1. -/

/-- C1 (amended): if an entry exists for the event's identity and
`allowOverwrite(existing.source, n.source)` is false, `NodeUpdated` leaves the
manager state unchanged except for the received-events counter (labeled
update), calls no handler, and its only other side effects are the ipcache
upserts for the record's projected addresses, which are performed before
arbitration; if `allowOverwrite` is true the stored record is replaced
wholesale by the event's record. -/
theorem nodeUpdated_arbitration (env : Env) (m : Manager) (n existing : Node)
    (hl : lookupNode m.nodes n.identity = some existing) :
    (env.allowOverwrite existing.source n.source = false →
      (nodeUpdated env m n).1 =
        { m with eventsReceived := m.eventsReceived ++ [(EvType.update, n.source)] } ∧
      (nodeUpdated env m n).2 = (upsertRequests env n).map Effect.ipcacheUpsert) ∧
    (env.allowOverwrite existing.source n.source = true →
      lookupNode (nodeUpdated env m n).1.nodes n.identity = some n) := by
  constructor
  · intro hfalse
    simp only [nodeUpdated, hl, hfalse]
    exact ⟨rfl, rfl⟩
  · intro htrue
    simp only [nodeUpdated, hl, htrue, if_true]
    exact lookupNode_updateNode_self m.nodes n.identity n existing hl

/-- C1 counterexample: a kvstore update for a record owned by the local agent
is rejected by arbitration, yet `NodeUpdated` still performs an ipcache
upsert for the record's internal address — a side effect beyond the
received-events counter, so the claim's "without any side effect other than
incrementing the received-events counter" is false. -/
theorem nodeUpdated_rejected_upsert_counterexample :
    AllowOverwrite nodeLocal.source nodeKV.source = false ∧
    lookupNode mgrLocal.nodes nodeKV.identity = some nodeLocal ∧
    (nodeUpdated envW mgrLocal nodeKV).1.nodes = mgrLocal.nodes ∧
    (nodeUpdated envW mgrLocal nodeKV).1.eventsReceived =
      [(EvType.update, Source.kvstore)] ∧
    (nodeUpdated envW mgrLocal nodeKV).2 =
      [Effect.ipcacheUpsert ⟨ipA, some ipPub, 0, IdentKind.host, Source.kvstore⟩] := by
  refine ⟨by decide, by decide, by decide, by decide, by decide⟩

/-- C1 witness: the amended theorem applied to the kvstore-vs-local fixture. -/
theorem nodeUpdated_arbitration_witness :
    lookupNode mgrLocal.nodes nodeKV.identity = some nodeLocal ∧
    ((envW.allowOverwrite nodeLocal.source nodeKV.source = false →
      (nodeUpdated envW mgrLocal nodeKV).1 =
        { mgrLocal with
          eventsReceived := mgrLocal.eventsReceived ++ [(EvType.update, nodeKV.source)] } ∧
      (nodeUpdated envW mgrLocal nodeKV).2 =
        (upsertRequests envW nodeKV).map Effect.ipcacheUpsert) ∧
    (envW.allowOverwrite nodeLocal.source nodeKV.source = true →
      lookupNode (nodeUpdated envW mgrLocal nodeKV).1.nodes nodeKV.identity = some nodeKV)) :=
  ⟨by decide, nodeUpdated_arbitration envW mgrLocal nodeKV nodeLocal (by decide)⟩

/-! Claim C2. -/

/-- C2: a `NodeDeleted` event whose source differs from the stored record's
source removes nothing and calls no handler, except that the orchestrator
deleting the local node closes the whole manager; a source-matching delete
removes the entry, decrements the gauge, deletes the stored record's
addresses from the ipcache and fans `NodeDelete` out to every handler. -/
theorem nodeDeleted_source_match (env : Env) (m : Manager) (n stored : Node)
    (hl : lookupNode m.nodes n.identity = some stored) :
    ((n.source ≠ stored.source ∧
        ¬(isLocal env n = true ∧ n.source = Source.kubernetes)) →
      (nodeDeleted env m n).1.nodes = m.nodes ∧ (nodeDeleted env m n).2 = []) ∧
    ((n.source ≠ stored.source ∧ isLocal env n = true ∧
        n.source = Source.kubernetes) →
      (nodeDeleted env m n).1.closed = true ∧
      (nodeDeleted env m n).1.nodes = m.nodes) ∧
    (n.source = stored.source →
      lookupNode (nodeDeleted env m n).1.nodes n.identity = none ∧
      (nodeDeleted env m n).1.numNodes = m.numNodes - 1 ∧
      (∀ a ∈ stored.ipAddresses,
        Effect.ipcacheDelete a.ip n.source ∈ (nodeDeleted env m n).2) ∧
      (∀ h ∈ m.handlers, Effect.nodeDelete h n ∈ (nodeDeleted env m n).2)) := by
  refine ⟨?_, ?_, ?_⟩
  · rintro ⟨hne, hnot⟩
    simp only [nodeDeleted, hl, if_pos hne, if_neg hnot]
    exact ⟨trivial, trivial⟩
  · rintro ⟨hne, hcond⟩
    simp only [nodeDeleted, hl, if_pos hne, if_pos hcond, closeManager]
    exact ⟨trivial, trivial⟩
  · intro hs
    have hne : ¬(n.source ≠ stored.source) := fun hne => hne hs
    simp only [nodeDeleted, hl, if_neg hne]
    refine ⟨lookupNode_removeNode_self _ _, trivial, ?_, ?_⟩
    · intro a ha
      exact List.mem_append_left _ (List.mem_append_left _ (List.mem_append_left _
        (List.mem_map_of_mem _ ha)))
    · intro h hh
      exact List.mem_append_left _ (List.mem_append_right _ (List.mem_map_of_mem _ hh))

/-- C2 witness: a source-matching delete of the fixture node removes the
entry, decrements the gauge, deletes its address from the ipcache and
notifies handler 0; the theorem is applied at the fixture and the mismatch
branches hold vacuously or via the close rule. -/
theorem nodeDeleted_source_match_witness :
    lookupNode mgrK8s.nodes nodeK8s.identity = some nodeK8s ∧
    (((nodeK8s.source ≠ nodeK8s.source ∧
        ¬(isLocal envW nodeK8s = true ∧ nodeK8s.source = Source.kubernetes)) →
      (nodeDeleted envW mgrK8s nodeK8s).1.nodes = mgrK8s.nodes ∧
      (nodeDeleted envW mgrK8s nodeK8s).2 = []) ∧
    ((nodeK8s.source ≠ nodeK8s.source ∧ isLocal envW nodeK8s = true ∧
        nodeK8s.source = Source.kubernetes) →
      (nodeDeleted envW mgrK8s nodeK8s).1.closed = true ∧
      (nodeDeleted envW mgrK8s nodeK8s).1.nodes = mgrK8s.nodes) ∧
    (nodeK8s.source = nodeK8s.source →
      lookupNode (nodeDeleted envW mgrK8s nodeK8s).1.nodes nodeK8s.identity = none ∧
      (nodeDeleted envW mgrK8s nodeK8s).1.numNodes = mgrK8s.numNodes - 1 ∧
      (∀ a ∈ nodeK8s.ipAddresses,
        Effect.ipcacheDelete a.ip nodeK8s.source ∈ (nodeDeleted envW mgrK8s nodeK8s).2) ∧
      (∀ h ∈ mgrK8s.handlers,
        Effect.nodeDelete h nodeK8s ∈ (nodeDeleted envW mgrK8s nodeK8s).2))) :=
  ⟨by decide, nodeDeleted_source_match envW mgrK8s nodeK8s nodeK8s (by decide)⟩

/-! Claim C3. -/

/-- C3: for an accepted `NodeUpdated` event (fresh identity, or arbitration
permits the overwrite), a subscribed handler receives `NodeAdd`/`NodeUpdate`
if and only if every ipcache upsert performed for the record's projected
addresses reported ownership; even when ownership is denied the record is
stored (and the gauge incremented on insert). -/
theorem nodeUpdated_dp_iff_owned (env : Env) (m : Manager) (n old : Node)
    (h : Handler) (hh : h ∈ m.handlers) :
    (lookupNode m.nodes n.identity = none →
      ((Effect.nodeAdd h n ∈ (nodeUpdated env m n).2) ↔
        (upsertRequests env n).all env.owns = true) ∧
      lookupNode (nodeUpdated env m n).1.nodes n.identity = some n ∧
      (nodeUpdated env m n).1.numNodes = m.numNodes + 1) ∧
    (lookupNode m.nodes n.identity = some old →
      env.allowOverwrite old.source n.source = true →
      ((Effect.nodeUpdate h old n ∈ (nodeUpdated env m n).2) ↔
        (upsertRequests env n).all env.owns = true) ∧
      lookupNode (nodeUpdated env m n).1.nodes n.identity = some n) := by
  constructor
  · intro hl
    simp only [nodeUpdated, hl]
    refine ⟨?_, lookupNode_append_single _ _ _ hl, ?_⟩
    · cases hdp : (upsertRequests env n).all env.owns with
      | false => simp [hdp]
      | true => simp [hdp, hh]
    · simp
  · intro hl hao
    simp only [nodeUpdated, hl, hao, if_true]
    refine ⟨?_, lookupNode_updateNode_self _ _ _ _ hl⟩
    cases hdp : (upsertRequests env n).all env.owns with
    | false => simp [hdp]
    | true => simp [hdp, hh]

/-- C3 witness: the theorem applied to an empty manager receiving the fixture
record with an always-owning ipcache. -/
theorem nodeUpdated_dp_iff_owned_witness :
    (0 : Handler) ∈ mgr0.handlers ∧
    ((lookupNode mgr0.nodes nodeK8s.identity = none →
      ((Effect.nodeAdd 0 nodeK8s ∈ (nodeUpdated envW mgr0 nodeK8s).2) ↔
        (upsertRequests envW nodeK8s).all envW.owns = true) ∧
      lookupNode (nodeUpdated envW mgr0 nodeK8s).1.nodes nodeK8s.identity = some nodeK8s ∧
      (nodeUpdated envW mgr0 nodeK8s).1.numNodes = mgr0.numNodes + 1) ∧
    (lookupNode mgr0.nodes nodeK8s.identity = some nodeOther →
      envW.allowOverwrite nodeOther.source nodeK8s.source = true →
      ((Effect.nodeUpdate 0 nodeOther nodeK8s ∈ (nodeUpdated envW mgr0 nodeK8s).2) ↔
        (upsertRequests envW nodeK8s).all envW.owns = true) ∧
      lookupNode (nodeUpdated envW mgr0 nodeK8s).1.nodes nodeK8s.identity = some nodeK8s)) :=
  ⟨by decide, nodeUpdated_dp_iff_owned envW mgr0 nodeK8s nodeOther 0 (by decide)⟩

/-! Claim C4. -/

/-- C4 (amended): after `Close()` returns, every node identity tracked at the
time of the call has received exactly one `NodeDelete` notification on each
handler subscribed at close time, and the lifecycle signal is closed; the
node map itself is left untouched, so entries remain visible to a
subsequent snapshot. -/
theorem close_deletes_each_node (m : Manager) (h : Handler) (nd : Node)
    (hh : h ∈ m.handlers) (hdup : m.handlers.Nodup)
    (hkeys : (m.nodes.map Prod.fst).Nodup)
    (hwf : ∀ p ∈ m.nodes, p.1 = p.2.identity)
    (hmem : (nd.identity, nd) ∈ m.nodes) :
    ((closeManager m).2.count (Effect.nodeDelete h nd)) = 1 ∧
    (closeManager m).1.closed = true ∧
    (closeManager m).1.nodes = m.nodes := by
  refine ⟨?_, rfl, rfl⟩
  simp only [closeManager]
  exact count_teardown_flatMap m.handlers h nd m.nodes hdup hh hkeys hwf hmem

/-- C4 counterexample: `Close` does not remove entries from the node map, so
after closing a manager that tracks one node the snapshot is not empty and
`Exists` still reports the identity — the claim's "the manager holds zero
live node entries" is false. -/
theorem close_retains_entries_counterexample :
    (closeManager mgrK8s).1.nodes = [(idW, nodeK8s)] ∧
    existsNode (closeManager mgrK8s).1 idW = true := by
  exact ⟨by decide, by decide⟩

/-- C4 witness: closing the one-node fixture manager emits exactly one
`NodeDelete` for the node on the only subscribed handler. -/
theorem close_deletes_each_node_witness :
    ((0 : Handler) ∈ mgrK8s.handlers ∧ mgrK8s.handlers.Nodup ∧
      (mgrK8s.nodes.map Prod.fst).Nodup ∧
      (∀ p ∈ mgrK8s.nodes, p.1 = p.2.identity) ∧
      (nodeK8s.identity, nodeK8s) ∈ mgrK8s.nodes) ∧
    (((closeManager mgrK8s).2.count (Effect.nodeDelete 0 nodeK8s)) = 1 ∧
      (closeManager mgrK8s).1.closed = true ∧
      (closeManager mgrK8s).1.nodes = mgrK8s.nodes) :=
  ⟨⟨by decide, by decide, by decide, by decide, by decide⟩,
   close_deletes_each_node mgrK8s 0 nodeK8s (by decide) (by decide) (by decide)
     (by decide) (by decide)⟩

/-! Claim C5. -/

theorem nodeUpdated_update_effects (env : Env) (m1 : Manager) (n old : Node)
    (hl : lookupNode m1.nodes n.identity = some old)
    (hao : env.allowOverwrite old.source n.source = true)
    (hown : (upsertRequests env n).all env.owns = true) :
    (nodeUpdated env m1 n).2 =
      (upsertRequests env n).map Effect.ipcacheUpsert ++ [Effect.lockEntry n.identity] ++
        m1.handlers.map (fun h' => Effect.nodeUpdate h' old n) ++
        [Effect.unlockEntry n.identity] ∧
    (nodeUpdated env m1 n).1.numNodes = m1.numNodes := by
  simp only [nodeUpdated, hl, hao, hown, if_true]
  exact ⟨trivial, trivial⟩

/-- C5: from a state not tracking the event's identity (and a zero gauge),
delivering the identical `NodeUpdated(record)` event twice — with every
ipcache upsert reporting ownership and same-source overwrites permitted —
produces exactly one `NodeAdd` on the first delivery and exactly one
`NodeUpdate(record, record)` on the second per handler, with no update call
in the first trace and no add call in the second, leaving the node-count
gauge at 1, never 2. -/
theorem nodeUpdated_twice_idempotent (env : Env) (m : Manager) (n : Node)
    (h : Handler)
    (hl : lookupNode m.nodes n.identity = none)
    (hg : m.numNodes = 0)
    (hown : (upsertRequests env n).all env.owns = true)
    (hao : env.allowOverwrite n.source n.source = true)
    (hh : h ∈ m.handlers) (hdup : m.handlers.Nodup) :
    ((nodeUpdated env m n).2.count (Effect.nodeAdd h n) = 1) ∧
    ((nodeUpdated env m n).2.countP Effect.isNodeUpdateEff = 0) ∧
    ((nodeUpdated env (nodeUpdated env m n).1 n).2.count (Effect.nodeUpdate h n n) = 1) ∧
    ((nodeUpdated env (nodeUpdated env m n).1 n).2.countP Effect.isNodeAddEff = 0) ∧
    ((nodeUpdated env (nodeUpdated env m n).1 n).1.numNodes = 1) := by
  have e1eq : (nodeUpdated env m n).2 =
      (upsertRequests env n).map Effect.ipcacheUpsert ++ [Effect.lockEntry n.identity] ++
        m.handlers.map (fun h' => Effect.nodeAdd h' n) ++ [Effect.unlockEntry n.identity] := by
    simp only [nodeUpdated, hl, hown, if_true]
  have m1nodes : (nodeUpdated env m n).1.nodes = m.nodes ++ [(n.identity, n)] := by
    simp only [nodeUpdated, hl]
  have m1handlers : (nodeUpdated env m n).1.handlers = m.handlers := by
    simp only [nodeUpdated, hl]
  have m1num : (nodeUpdated env m n).1.numNodes = 1 := by
    simp only [nodeUpdated, hl]
    simp [hg]
  have hl2 : lookupNode (nodeUpdated env m n).1.nodes n.identity = some n := by
    rw [m1nodes]
    exact lookupNode_append_single _ _ _ hl
  have e2 := nodeUpdated_update_effects env (nodeUpdated env m n).1 n n hl2 hao hown
  rw [m1handlers] at e2
  have e2eq : (nodeUpdated env (nodeUpdated env m n).1 n).2 =
      (upsertRequests env n).map Effect.ipcacheUpsert ++ [Effect.lockEntry n.identity] ++
        m.handlers.map (fun h' => Effect.nodeUpdate h' n n) ++
        [Effect.unlockEntry n.identity] := e2.1
  have m2num : (nodeUpdated env (nodeUpdated env m n).1 n).1.numNodes = 1 := by
    rw [e2.2, m1num]
  have hcnt : m.handlers.count h = 1 := List.count_eq_one_of_mem hdup hh
  refine ⟨?_, ?_, ?_, ?_, m2num⟩
  · rw [e1eq]
    simp only [List.count_append]
    have hmap : ((m.handlers.map fun h' => Effect.nodeAdd h' n).count
        (Effect.nodeAdd h n)) = 1 := by
      rw [List.count_map_of_injective m.handlers (fun h' => Effect.nodeAdd h' n)
        (fun a b hab => by simpa using hab) h]
      exact hcnt
    have hups : (((upsertRequests env n).map Effect.ipcacheUpsert).count
        (Effect.nodeAdd h n)) = 0 := by
      rw [List.count_eq_zero]
      intro hmem
      obtain ⟨r, _, heq⟩ := List.mem_map.mp hmem
      simp at heq
    rw [hups, hmap]
    simp
  · rw [e1eq]
    simp only [List.countP_append]
    have h1 : (((upsertRequests env n).map Effect.ipcacheUpsert).countP
        Effect.isNodeUpdateEff) = 0 := by
      rw [List.countP_eq_zero]
      intro a ha
      obtain ⟨r, _, heq⟩ := List.mem_map.mp ha
      rw [← heq]
      simp [Effect.isNodeUpdateEff]
    have h2 : ((m.handlers.map fun h' => Effect.nodeAdd h' n).countP
        Effect.isNodeUpdateEff) = 0 := by
      rw [List.countP_eq_zero]
      intro a ha
      obtain ⟨h', _, heq⟩ := List.mem_map.mp ha
      rw [← heq]
      simp [Effect.isNodeUpdateEff]
    rw [h1, h2]
    simp [Effect.isNodeUpdateEff]
  · rw [e2eq]
    simp only [List.count_append]
    have hmap : ((m.handlers.map fun h' => Effect.nodeUpdate h' n n).count
        (Effect.nodeUpdate h n n)) = 1 := by
      rw [List.count_map_of_injective m.handlers (fun h' => Effect.nodeUpdate h' n n)
        (fun a b hab => by simpa using hab) h]
      exact hcnt
    have hups : (((upsertRequests env n).map Effect.ipcacheUpsert).count
        (Effect.nodeUpdate h n n)) = 0 := by
      rw [List.count_eq_zero]
      intro hmem
      obtain ⟨r, _, heq⟩ := List.mem_map.mp hmem
      simp at heq
    rw [hups, hmap]
    simp
  · rw [e2eq]
    simp only [List.countP_append]
    have h1 : (((upsertRequests env n).map Effect.ipcacheUpsert).countP
        Effect.isNodeAddEff) = 0 := by
      rw [List.countP_eq_zero]
      intro a ha
      obtain ⟨r, _, heq⟩ := List.mem_map.mp ha
      rw [← heq]
      simp [Effect.isNodeAddEff]
    have h2 : ((m.handlers.map fun h' => Effect.nodeUpdate h' n n).countP
        Effect.isNodeAddEff) = 0 := by
      rw [List.countP_eq_zero]
      intro a ha
      obtain ⟨h', _, heq⟩ := List.mem_map.mp ha
      rw [← heq]
      simp [Effect.isNodeAddEff]
    rw [h1, h2]
    simp [Effect.isNodeAddEff]

/-- C5 witness: the double delivery of the fixture record to the empty
fixture manager, with the spec-modelled arbitration (reflexive on equal
sources) and an always-owning ipcache. -/
theorem nodeUpdated_twice_idempotent_witness :
    (lookupNode mgr0.nodes nodeK8s.identity = none ∧ mgr0.numNodes = 0 ∧
      (upsertRequests envW nodeK8s).all envW.owns = true ∧
      envW.allowOverwrite nodeK8s.source nodeK8s.source = true ∧
      (0 : Handler) ∈ mgr0.handlers ∧ mgr0.handlers.Nodup) ∧
    (((nodeUpdated envW mgr0 nodeK8s).2.count (Effect.nodeAdd 0 nodeK8s) = 1) ∧
    ((nodeUpdated envW mgr0 nodeK8s).2.countP Effect.isNodeUpdateEff = 0) ∧
    ((nodeUpdated envW (nodeUpdated envW mgr0 nodeK8s).1 nodeK8s).2.count
        (Effect.nodeUpdate 0 nodeK8s nodeK8s) = 1) ∧
    ((nodeUpdated envW (nodeUpdated envW mgr0 nodeK8s).1 nodeK8s).2.countP
        Effect.isNodeAddEff = 0) ∧
    ((nodeUpdated envW (nodeUpdated envW mgr0 nodeK8s).1 nodeK8s).1.numNodes = 1)) :=
  ⟨⟨by decide, by decide, by decide, by decide, by decide, by decide⟩,
   nodeUpdated_twice_idempotent envW mgr0 nodeK8s 0 (by decide) (by decide)
     (by decide) (by decide) (by decide) (by decide)⟩

/-! Claims C6 and C8: the cluster-size dependant interval. -/

theorem exp_two_gt_four : (4 : ℝ) < Real.exp 2 := by
  have h := Real.exp_one_gt_d9
  have h2 : Real.exp 2 = Real.exp 1 * Real.exp 1 := by
    rw [← Real.exp_add]
    norm_num
  nlinarith

theorem one_le_log_three : (1 : ℝ) ≤ Real.log 3 := by
  rw [Real.le_log_iff_exp_le (by norm_num : (0:ℝ) < 3)]
  exact le_of_lt (lt_of_lt_of_le Real.exp_one_lt_d9 (by norm_num))

theorem floor_log_three : ⌊Real.log 3⌋ = 1 := by
  rw [Int.floor_eq_iff]
  constructor
  · exact_mod_cast one_le_log_three
  · have := (Real.log_lt_iff_lt_exp (by norm_num : (0:ℝ) < 3)).mpr
      (lt_trans (by norm_num) exp_two_gt_four)
    push_cast
    linarith

theorem floor_log_four : ⌊Real.log 4⌋ = 1 := by
  rw [Int.floor_eq_iff]
  constructor
  · have h3 : (1 : ℝ) ≤ Real.log 4 := by
      rw [Real.le_log_iff_exp_le (by norm_num : (0:ℝ) < 4)]
      exact le_of_lt (lt_of_lt_of_le Real.exp_one_lt_d9 (by norm_num))
    exact_mod_cast h3
  · have := (Real.log_lt_iff_lt_exp (by norm_num : (0:ℝ) < 4)).mpr exp_two_gt_four
    push_cast
    linarith

/-- C6 (amended): `ClusterSizeDependantInterval(base)` returns exactly `base`
when the manager tracks zero nodes; for every node count `n ≥ 1` it returns
the integer (nanosecond) truncation of `base × ln(1 + n)`, and the returned
duration is non-decreasing in the node count from one node onward — strict
monotonicity fails because the truncation collapses neighbouring counts. -/
theorem clusterInterval_formula (base : Int) (a b : Nat)
    (hb : 0 ≤ base) (ha : 1 ≤ a) (hab : a ≤ b) :
    clusterSizeDependantInterval 0 base = base ∧
    clusterSizeDependantInterval a base = ⌊(base : ℝ) * Real.log (1 + (a : ℝ))⌋ ∧
    clusterSizeDependantInterval a base ≤ clusterSizeDependantInterval b base := by
  refine ⟨rfl, ?_, ?_⟩
  · rw [clusterSizeDependantInterval, if_neg (by omega)]
  · rw [clusterSizeDependantInterval, if_neg (by omega),
      clusterSizeDependantInterval, if_neg (by omega)]
    apply Int.floor_le_floor
    apply mul_le_mul_of_nonneg_left _ (by exact_mod_cast hb)
    apply Real.log_le_log (by positivity)
    have : (a : ℝ) ≤ (b : ℝ) := by exact_mod_cast hab
    linarith

/-- C6 counterexample: with a base interval of 1 nanosecond the intervals for
two and for three nodes are both 1 ns (`⌊ln 3⌋ = ⌊ln 4⌋ = 1`), so the
returned duration is neither exactly `base × ln(1+n)` (which is irrational
there) nor strictly increasing in the node count. -/
theorem clusterInterval_not_strict_counterexample :
    clusterSizeDependantInterval 2 1 = 1 ∧ clusterSizeDependantInterval 3 1 = 1 := by
  constructor
  · rw [clusterSizeDependantInterval, if_neg (by omega)]
    push_cast
    rw [one_mul]
    have h3 : (1 : ℝ) + 2 = 3 := by norm_num
    rw [h3, floor_log_three]
  · rw [clusterSizeDependantInterval, if_neg (by omega)]
    push_cast
    rw [one_mul]
    have h4 : (1 : ℝ) + 3 = 4 := by norm_num
    rw [h4, floor_log_four]

/-- C6 witness: the amended theorem at base 1 with node counts 1 and 2. -/
theorem clusterInterval_formula_witness :
    ((0 : Int) ≤ 1 ∧ (1 : Nat) ≤ 1 ∧ (1 : Nat) ≤ 2) ∧
    (clusterSizeDependantInterval 0 1 = 1 ∧
     clusterSizeDependantInterval 1 1 = ⌊((1 : Int) : ℝ) * Real.log (1 + ((1 : Nat) : ℝ))⌋ ∧
     clusterSizeDependantInterval 1 1 ≤ clusterSizeDependantInterval 2 1) :=
  ⟨⟨by norm_num, by norm_num, by norm_num⟩,
   clusterInterval_formula 1 1 2 (by norm_num) (by norm_num) (by norm_num)⟩

/-- C8: for one tracked node the interval is the truncation of
`base × ln 2`, strictly below the base interval for every positive base,
while from two nodes onward the interval equals or exceeds the base. -/
theorem clusterInterval_one_node (base : Int) (n : Nat)
    (hb : 0 < base) (hn : 2 ≤ n) :
    clusterSizeDependantInterval 1 base = ⌊(base : ℝ) * Real.log 2⌋ ∧
    clusterSizeDependantInterval 1 base < base ∧
    base ≤ clusterSizeDependantInterval n base := by
  have hbR : (0 : ℝ) < (base : ℝ) := by exact_mod_cast hb
  have hlog2lt : Real.log 2 < 1 := by
    rw [Real.log_lt_iff_lt_exp (by norm_num : (0:ℝ) < 2)]
    exact lt_trans (by norm_num) Real.exp_one_gt_d9
  have heq : clusterSizeDependantInterval 1 base = ⌊(base : ℝ) * Real.log 2⌋ := by
    rw [clusterSizeDependantInterval, if_neg (by omega)]
    norm_num
  refine ⟨heq, ?_, ?_⟩
  · rw [heq, Int.floor_lt]
    calc (base : ℝ) * Real.log 2 < (base : ℝ) * 1 := by
          exact mul_lt_mul_of_pos_left hlog2lt hbR
      _ = (base : ℝ) := by ring
  · rw [clusterSizeDependantInterval, if_neg (by omega), Int.le_floor]
    have hlogge : (1 : ℝ) ≤ Real.log (1 + (n : ℝ)) := by
      rw [Real.le_log_iff_exp_le (by positivity)]
      have hnR : (2 : ℝ) ≤ (n : ℝ) := by exact_mod_cast hn
      have := le_of_lt (lt_of_lt_of_le Real.exp_one_lt_d9 (by norm_num : (2.7182818286 : ℝ) ≤ 3))
      linarith
    calc (base : ℝ) = (base : ℝ) * 1 := by ring
      _ ≤ (base : ℝ) * Real.log (1 + (n : ℝ)) :=
          mul_le_mul_of_nonneg_left hlogge (le_of_lt hbR)

/-- C8 witness: the theorem at base 1 and node count 2. -/
theorem clusterInterval_one_node_witness :
    ((0 : Int) < 1 ∧ (2 : Nat) ≤ 2) ∧
    (clusterSizeDependantInterval 1 1 = ⌊((1 : Int) : ℝ) * Real.log 2⌋ ∧
     clusterSizeDependantInterval 1 1 < 1 ∧
     (1 : Int) ≤ clusterSizeDependantInterval 2 1) :=
  ⟨⟨by norm_num, by norm_num⟩, clusterInterval_one_node 1 2 (by norm_num) (by norm_num)⟩

/-! Claim C7. -/

theorem count_replay_entry (nh : Handler) (nd : Node) (p : Identity × Node) :
    (([Effect.lockEntry p.1, Effect.nodeAdd nh p.2, Effect.unlockEntry p.1]).count
      (Effect.nodeAdd nh nd)) = if p.2 = nd then 1 else 0 := by
  by_cases hpd : p.2 = nd <;> simp [List.count_cons, hpd]

theorem count_replay_flatMap (nh : Handler) (nd : Node) (l : List (Identity × Node))
    (hkeys : (l.map Prod.fst).Nodup)
    (hwf : ∀ p ∈ l, p.1 = p.2.identity)
    (hmem : (nd.identity, nd) ∈ l) :
    ((l.flatMap fun p => [Effect.lockEntry p.1, Effect.nodeAdd nh p.2,
        Effect.unlockEntry p.1]).count (Effect.nodeAdd nh nd)) = 1 := by
  induction l with
  | nil => simp at hmem
  | cons p rest ih =>
      rw [List.flatMap_cons, List.count_append]
      rcases List.mem_cons.mp hmem with hhead | htail
      · subst hhead
        rw [count_replay_entry, if_pos rfl]
        have hzero : ((rest.flatMap fun p => [Effect.lockEntry p.1,
            Effect.nodeAdd nh p.2, Effect.unlockEntry p.1]).count
              (Effect.nodeAdd nh nd)) = 0 := by
          rw [List.count_eq_zero]
          intro hmem2
          obtain ⟨q, hq, hq2⟩ := List.mem_flatMap.mp hmem2
          have hq3 : q.2 = nd := by
            simp only [List.mem_cons, List.mem_singleton, List.not_mem_nil,
              or_false] at hq2
            rcases hq2 with h1 | h2 | h3
            · exact absurd h1 (by simp)
            · exact ((by simpa using h2 : nd = q.2)).symm
            · exact absurd h3 (by simp)
          have hq4 : q.1 = nd.identity := by
            rw [hwf q (List.mem_cons_of_mem _ hq), hq3]
          simp only [List.map_cons, List.nodup_cons] at hkeys
          exact hkeys.1 (hq4 ▸ List.mem_map_of_mem Prod.fst hq)
        rw [hzero]
      · rw [count_replay_entry, if_neg]
        · simp only [List.map_cons, List.nodup_cons] at hkeys
          rw [Nat.zero_add]
          exact ih hkeys.2 (fun q hq => hwf q (List.mem_cons_of_mem _ hq)) htail
        · intro hpd
          have hp1 : p.1 = nd.identity := by
            rw [hwf p (List.mem_cons_self p rest), hpd]
          simp only [List.map_cons, List.nodup_cons] at hkeys
          exact hkeys.1 (hp1 ▸ List.mem_map_of_mem Prod.fst htail)

theorem replay_bracketed (nh : Handler) (l : List (Identity × Node))
    (id : Identity) (nd : Node) (hmem : (id, nd) ∈ l) :
    ∃ pre post, (l.flatMap fun p => [Effect.lockEntry p.1, Effect.nodeAdd nh p.2,
        Effect.unlockEntry p.1]) =
      pre ++ [Effect.lockEntry id, Effect.nodeAdd nh nd, Effect.unlockEntry id] ++ post := by
  induction l with
  | nil => simp at hmem
  | cons p rest ih =>
      rcases List.mem_cons.mp hmem with hhead | htail
      · subst hhead
        exact ⟨[], rest.flatMap fun p => [Effect.lockEntry p.1, Effect.nodeAdd nh p.2,
          Effect.unlockEntry p.1], by simp⟩
      · obtain ⟨pre, post, heq⟩ := ih htail
        refine ⟨[Effect.lockEntry p.1, Effect.nodeAdd nh p.2, Effect.unlockEntry p.1] ++ pre,
          post, ?_⟩
        rw [List.flatMap_cons, heq]
        simp [List.append_assoc]

/-- C7: `Subscribe(handler)` adds the handler to the handler set (keeping the
existing ones) and replays exactly one `NodeAdd` per tracked node, addressed
to the new handler only, each replay bracketed by the acquisition and release
of that node's entry guard. -/
theorem subscribe_replays_node_add (m : Manager) (nh : Handler)
    (id : Identity) (nd : Node)
    (hkeys : (m.nodes.map Prod.fst).Nodup)
    (hwf : ∀ p ∈ m.nodes, p.1 = p.2.identity)
    (hmem : (id, nd) ∈ m.nodes) :
    nh ∈ (subscribe m nh).1.handlers ∧
    (∀ h ∈ m.handlers, h ∈ (subscribe m nh).1.handlers) ∧
    ((subscribe m nh).2.count (Effect.nodeAdd nh nd) = 1) ∧
    (∀ h' nd', Effect.nodeAdd h' nd' ∈ (subscribe m nh).2 → h' = nh) ∧
    (∃ pre post, (subscribe m nh).2 =
      pre ++ [Effect.lockEntry id, Effect.nodeAdd nh nd, Effect.unlockEntry id] ++ post) := by
  have hid : id = nd.identity := by
    have := hwf (id, nd) hmem
    simpa using this
  refine ⟨?_, ?_, ?_, ?_, ?_⟩
  · simp only [subscribe]
    by_cases hin : nh ∈ m.handlers
    · simp [hin]
    · simp [hin]
  · intro h hh
    simp only [subscribe]
    by_cases hin : nh ∈ m.handlers
    · simpa [hin] using hh
    · simp only [hin, if_neg]
      exact List.mem_append_left _ hh
  · simp only [subscribe]
    exact count_replay_flatMap nh nd m.nodes hkeys hwf (hid ▸ hmem)
  · intro h' nd' hmem2
    simp only [subscribe] at hmem2
    obtain ⟨q, _, hq2⟩ := List.mem_flatMap.mp hmem2
    simp only [List.mem_cons, List.mem_singleton, List.not_mem_nil, or_false] at hq2
    rcases hq2 with h1 | h2 | h3
    · exact absurd h1 (by simp)
    · exact ((by simpa using h2 : h' = nh ∧ nd' = q.2)).1
    · exact absurd h3 (by simp)
  · simp only [subscribe]
    exact replay_bracketed nh m.nodes id nd hmem

/-- C7 witness: subscribing handler 1 to the one-node fixture manager replays
a single guarded `NodeAdd` of the fixture node to handler 1. -/
theorem subscribe_replays_node_add_witness :
    ((mgrK8s.nodes.map Prod.fst).Nodup ∧
      (∀ p ∈ mgrK8s.nodes, p.1 = p.2.identity) ∧ (idW, nodeK8s) ∈ mgrK8s.nodes) ∧
    ((1 : Handler) ∈ (subscribe mgrK8s 1).1.handlers ∧
    (∀ h ∈ mgrK8s.handlers, h ∈ (subscribe mgrK8s 1).1.handlers) ∧
    ((subscribe mgrK8s 1).2.count (Effect.nodeAdd 1 nodeK8s) = 1) ∧
    (∀ h' nd', Effect.nodeAdd h' nd' ∈ (subscribe mgrK8s 1).2 → h' = 1) ∧
    (∃ pre post, (subscribe mgrK8s 1).2 =
      pre ++ [Effect.lockEntry idW, Effect.nodeAdd 1 nodeK8s,
        Effect.unlockEntry idW] ++ post)) :=
  ⟨⟨by decide, by decide, by decide⟩,
   subscribe_replays_node_add mgrK8s 1 idW nodeK8s (by decide) (by decide) (by decide)⟩

/-! Claim C9. -/

/-- C9: on a source-matching `NodeDeleted(n)`, every handler's `NodeDelete`
receives the event's record `n` (and nothing but `n`), while the ipcache
deletions are exactly the stored record's addresses. -/
theorem nodeDeleted_event_record (env : Env) (m : Manager) (n stored : Node)
    (h : Handler)
    (hl : lookupNode m.nodes n.identity = some stored)
    (hs : n.source = stored.source)
    (hh : h ∈ m.handlers) :
    Effect.nodeDelete h n ∈ (nodeDeleted env m n).2 ∧
    (∀ h' nd', Effect.nodeDelete h' nd' ∈ (nodeDeleted env m n).2 → nd' = n) ∧
    ((nodeDeleted env m n).2.filter Effect.isIpcacheDeleteEff =
      stored.ipAddresses.map fun a => Effect.ipcacheDelete a.ip n.source) := by
  have hne : ¬(n.source ≠ stored.source) := fun hx => hx hs
  refine ⟨?_, ?_, ?_⟩
  · simp only [nodeDeleted, hl, if_neg hne]
    exact List.mem_append_left _ (List.mem_append_right _ (List.mem_map_of_mem _ hh))
  · intro h' nd' hm
    simp only [nodeDeleted, hl, if_neg hne] at hm
    rcases List.mem_append.mp hm with hm1 | hm4
    · rcases List.mem_append.mp hm1 with hm2 | hm3
      · rcases List.mem_append.mp hm2 with hmA | hmB
        · obtain ⟨a, _, ha⟩ := List.mem_map.mp hmA
          exact absurd ha (by simp)
        · exact absurd (List.mem_singleton.mp hmB) (by simp)
      · obtain ⟨a, _, ha⟩ := List.mem_map.mp hm3
        exact ((by simpa using ha : a = h' ∧ n = nd')).2.symm
    · exact absurd (List.mem_singleton.mp hm4) (by simp)
  · simp only [nodeDeleted, hl, if_neg hne]
    rw [List.filter_append, List.filter_append, List.filter_append]
    have hA : ((stored.ipAddresses.map fun a => Effect.ipcacheDelete a.ip n.source).filter
        Effect.isIpcacheDeleteEff) =
        stored.ipAddresses.map fun a => Effect.ipcacheDelete a.ip n.source := by
      rw [List.filter_eq_self]
      intro e he
      obtain ⟨a, _, ha⟩ := List.mem_map.mp he
      rw [← ha]
      rfl
    have hB : (([Effect.lockEntry n.identity]).filter Effect.isIpcacheDeleteEff) = [] := rfl
    have hC : ((m.handlers.map fun h' => Effect.nodeDelete h' n).filter
        Effect.isIpcacheDeleteEff) = [] := by
      rw [List.filter_eq_nil_iff]
      intro e he
      obtain ⟨a, _, ha⟩ := List.mem_map.mp he
      rw [← ha]
      simp [Effect.isIpcacheDeleteEff]
    have hD : (([Effect.unlockEntry n.identity]).filter Effect.isIpcacheDeleteEff) = [] := rfl
    rw [hA, hB, hC, hD]
    simp

/-- C9 witness: deleting the fixture node with a kvstore event record that
matches the stored source but carries a different address list — handlers
see the event record, the ipcache deletions use the stored addresses. -/
theorem nodeDeleted_event_record_witness :
    (lookupNode mgrK8s.nodes nodeK8s.identity = some nodeK8s ∧
      nodeK8s.source = nodeK8s.source ∧ (0 : Handler) ∈ mgrK8s.handlers) ∧
    (Effect.nodeDelete 0 nodeK8s ∈ (nodeDeleted envW mgrK8s nodeK8s).2 ∧
    (∀ h' nd', Effect.nodeDelete h' nd' ∈ (nodeDeleted envW mgrK8s nodeK8s).2 →
      nd' = nodeK8s) ∧
    ((nodeDeleted envW mgrK8s nodeK8s).2.filter Effect.isIpcacheDeleteEff =
      nodeK8s.ipAddresses.map fun a => Effect.ipcacheDelete a.ip nodeK8s.source)) :=
  ⟨⟨by decide, by decide, by decide⟩,
   nodeDeleted_event_record envW mgrK8s nodeK8s nodeK8s 0 (by decide) (by decide) (by decide)⟩

/-! Claim C10. -/

theorem teardown_no_ipcacheDelete (hs : List Handler) (l : List (Identity × Node)) :
    ((l.flatMap (entryDeleteEffects hs)).countP Effect.isIpcacheDeleteEff) = 0 := by
  rw [List.countP_eq_zero]
  intro e he
  obtain ⟨p, _, hp⟩ := List.mem_flatMap.mp he
  simp only [entryDeleteEffects, List.mem_cons, List.mem_append, List.mem_map,
    List.mem_singleton, List.not_mem_nil, or_false] at hp
  rcases hp with h1 | ⟨⟨a, _, h2⟩ | h3⟩
  · rw [h1]
    simp [Effect.isIpcacheDeleteEff]
  · rw [← h2]
    simp [Effect.isIpcacheDeleteEff]
  · rw [h3]
    simp [Effect.isIpcacheDeleteEff]

/-- C10: `DeleteAllNodes` fans `NodeDelete` out to every handler exactly once
per stored record and empties the node map, but leaves the node-count gauge
at its pre-call value and performs no ipcache deletion; afterwards `Exists`
is false for every identity. -/
theorem deleteAllNodes_frame (m : Manager) (id : Identity) (h : Handler) (nd : Node)
    (hh : h ∈ m.handlers) (hdup : m.handlers.Nodup)
    (hkeys : (m.nodes.map Prod.fst).Nodup)
    (hwf : ∀ p ∈ m.nodes, p.1 = p.2.identity)
    (hmem : (nd.identity, nd) ∈ m.nodes) :
    (deleteAllNodes m).1.nodes = [] ∧
    (deleteAllNodes m).1.numNodes = m.numNodes ∧
    existsNode (deleteAllNodes m).1 id = false ∧
    ((deleteAllNodes m).2.countP Effect.isIpcacheDeleteEff = 0) ∧
    ((deleteAllNodes m).2.count (Effect.nodeDelete h nd) = 1) := by
  refine ⟨rfl, rfl, rfl, ?_, ?_⟩
  · exact teardown_no_ipcacheDelete m.handlers m.nodes
  · simp only [deleteAllNodes]
    exact count_teardown_flatMap m.handlers h nd m.nodes hdup hh hkeys hwf hmem

/-- C10 witness: deleting all nodes of the one-node fixture manager notifies
handler 0 once, empties the map, and leaves the gauge at 1 with no ipcache
deletion. -/
theorem deleteAllNodes_frame_witness :
    ((0 : Handler) ∈ mgrK8s.handlers ∧ mgrK8s.handlers.Nodup ∧
      (mgrK8s.nodes.map Prod.fst).Nodup ∧
      (∀ p ∈ mgrK8s.nodes, p.1 = p.2.identity) ∧
      (nodeK8s.identity, nodeK8s) ∈ mgrK8s.nodes) ∧
    ((deleteAllNodes mgrK8s).1.nodes = [] ∧
    (deleteAllNodes mgrK8s).1.numNodes = mgrK8s.numNodes ∧
    existsNode (deleteAllNodes mgrK8s).1 idW = false ∧
    ((deleteAllNodes mgrK8s).2.countP Effect.isIpcacheDeleteEff = 0) ∧
    ((deleteAllNodes mgrK8s).2.count (Effect.nodeDelete 0 nodeK8s) = 1)) :=
  ⟨⟨by decide, by decide, by decide, by decide, by decide⟩,
   deleteAllNodes_frame mgrK8s idW 0 nodeK8s (by decide) (by decide) (by decide)
     (by decide) (by decide)⟩

end NodeManager
